import Mathlib

/-!
Verification of the TF-IDF pipeline of
`google/cloud/dataflow/examples/complete/tfidf.py`.

The pipeline is embedded shallowly: a PCollection is a `List`, the Dataflow
combiners (`Count.PerElement`, `Count.Globally`, `RemoveDuplicates`,
`CoGroupByKey`, `FlatMap`, `Map`, `Keys`, `Values`) become list operations,
Python floats become exact rationals `ℚ`, `math.log` is an abstract parameter
`lg : ℚ → ℚ`, and the Python exceptions that the per-element functions can
raise (`ValueError` from single-element unpacking, `ZeroDivisionError` from
division) are modelled with `Except String`.
-/

namespace Tfidf

/-- The apostrophe character, a member of the token pattern of
`split_into_words`. -/
def apos : Char := Char.ofNat 39

/-- The character class of the regular expression in `split_into_words`:
ASCII upper-case letters, ASCII lower-case letters, and the apostrophe. -/
def isWordChar (c : Char) : Bool :=
  (65 ≤ c.toNat && c.toNat ≤ 90) || (97 ≤ c.toNat && c.toNat ≤ 122) || c.toNat == 39

/-- Scanner of `re.findall` for the pattern "one or more word characters":
`acc` holds the (reversed) run of word characters read so far; a finished
run is emitted when a non-word character or the end of the line is
reached. -/
def findallAux (acc : List Char) : List Char → List (List Char)
  | [] => if acc.isEmpty then [] else [acc.reverse]
  | c :: cs =>
    if isWordChar c then
      findallAux (c :: acc) cs
    else if acc.isEmpty then
      findallAux [] cs
    else
      acc.reverse :: findallAux [] cs

/-- Model of `re.findall` for the pattern "one or more word characters":
the maximal runs of word characters of the line, in order. -/
def findall (l : List Char) : List (List Char) :=
  findallAux [] l

/-- Embedding of `split_into_words` from `TfIdf.apply`: tokenize a
(uri, line) record into (uri, lowercased word) pairs. -/
def split_into_words (p : String × String) : List (String × String) :=
  (findall p.2.data).map (fun w => (p.1, String.mk (w.map Char.toLower)))

/-- Model of the `Count.PerElement` combiner: each distinct element of the
input paired with its multiplicity. -/
def countPerElement {α : Type} [BEq α] [DecidableEq α] (l : List α) : List (α × ℕ) :=
  l.dedup.map (fun x => (x, l.count x))

/-- Model of `CoGroupByKey` on two keyed collections: for every key occurring
on either side, the values of each side sharing that key. -/
def coGroupByKey {κ α β : Type} [DecidableEq κ]
    (a : List (κ × α)) (b : List (κ × β)) : List (κ × List α × List β) :=
  (a.map Prod.fst ++ b.map Prod.fst).dedup.map
    (fun k => (k, (a.filter (fun p => decide (p.1 = k))).map Prod.snd,
                  (b.filter (fun p => decide (p.1 = k))).map Prod.snd))

/-- Element-wise processing of a collection by a fallible per-element
function; any raised exception aborts the run. -/
def mapME {α β : Type} (f : α → Except String β) : List α → Except String (List β)
  | [] => Except.ok []
  | a :: as =>
    match f a with
    | Except.error e => Except.error e
    | Except.ok b =>
      match mapME f as with
      | Except.error e => Except.error e
      | Except.ok bs => Except.ok (b :: bs)

/-- Embedding of `total_documents`: unique uris of the input, counted
globally. -/
def total_documents (corpus : List (String × String)) : ℕ :=
  ((corpus.map Prod.fst).dedup).length

/-- Embedding of `uri_to_words`: FlatMap of `split_into_words` over the
input. -/
def uri_to_words (corpus : List (String × String)) : List (String × String) :=
  corpus.flatMap split_into_words

/-- Embedding of `word_to_doc_count`: deduplicate (uri, word) pairs, project
to words, count per element. -/
def word_to_doc_count (corpus : List (String × String)) : List (String × ℕ) :=
  countPerElement (((uri_to_words corpus).dedup).map Prod.snd)

/-- Embedding of `uri_to_word_total`: project (uri, word) pairs to uris and
count per element. -/
def uri_to_word_total (corpus : List (String × String)) : List (String × ℕ) :=
  countPerElement ((uri_to_words corpus).map Prod.fst)

/-- Embedding of `uri_and_word_to_count`: count (uri, word) pairs per
element. -/
def uri_and_word_to_count (corpus : List (String × String)) :
    List ((String × String) × ℕ) :=
  countPerElement (uri_to_words corpus)

/-- Embedding of `uri_to_word_and_count`: shift keys from ((uri, word), n)
to (uri, (word, n)). -/
def uri_to_word_and_count (corpus : List (String × String)) :
    List (String × String × ℕ) :=
  (uri_and_word_to_count corpus).map (fun x => (x.1.1, x.1.2, x.2))

/-- Embedding of `uri_to_word_and_count_and_total`: CoGroupByKey of the word
totals and the word counts, keyed by uri. -/
def uri_to_word_and_count_and_total (corpus : List (String × String)) :
    List (String × List ℕ × List (String × ℕ)) :=
  coGroupByKey (uri_to_word_total corpus) (uri_to_word_and_count corpus)

/-- Embedding of `compute_term_frequency`: unpack the single word total of
the uri (a `ValueError` if the iterable does not have exactly one element)
and divide each word count by it (a `ZeroDivisionError` if it is zero). -/
def compute_term_frequency (x : String × List ℕ × List (String × ℕ)) :
    Except String (List (String × String × ℚ)) :=
  match x.2.1 with
  | [word_total] =>
      if word_total = 0 then
        Except.error "ZeroDivisionError: float division by zero"
      else
        Except.ok (x.2.2.map (fun wc => (wc.1, x.1, (wc.2 : ℚ) / (word_total : ℚ))))
  | _ => Except.error "ValueError: need exactly one word total to unpack"

/-- Embedding of `word_to_uri_and_tf`: FlatMap of `compute_term_frequency`
over the cogrouped collection. -/
def word_to_uri_and_tf (corpus : List (String × String)) :
    Except String (List (String × String × ℚ)) :=
  match mapME compute_term_frequency (uri_to_word_and_count_and_total corpus) with
  | Except.error e => Except.error e
  | Except.ok parts => Except.ok parts.flatten

/-- Embedding of `word_to_df`: divide each per-word document count by the
`total_documents` singleton side input (a `ZeroDivisionError` if it is
zero). -/
def word_to_df (corpus : List (String × String)) :
    Except String (List (String × ℚ)) :=
  mapME
    (fun wc =>
      if total_documents corpus = 0 then
        Except.error "ZeroDivisionError: float division by zero"
      else
        Except.ok (wc.1, (wc.2 : ℚ) / (total_documents corpus : ℚ)))
    (word_to_doc_count corpus)

/-- Embedding of `compute_tf_idf`: unpack the single document frequency of
the word (a `ValueError` if the iterable does not have exactly one element)
and emit (word, uri, tf * log(1 / df)) for every (uri, tf) of the word.
Python would additionally raise a `ZeroDivisionError` if the document
frequency were the float 0.0, but a zero document frequency can never be
produced by the pipeline (every word that reaches this function occurs in at
least one document — see `tfidf_apply_ok`), so that dead branch is not
modelled. -/
def compute_tf_idf (lg : ℚ → ℚ) (x : String × List (String × ℚ) × List ℚ) :
    Except String (List (String × String × ℚ)) :=
  match x.2.2 with
  | [docf] => Except.ok (x.2.1.map (fun ut => (x.1, ut.1, ut.2 * lg (1 / docf))))
  | _ => Except.error "ValueError: need exactly one document frequency to unpack"

/-- Embedding of `TfIdf.apply` end to end: the final collection
`word_to_uri_and_tfidf` of (word, uri, score) triples, or the first raised
exception. -/
def tfidf_apply (lg : ℚ → ℚ) (corpus : List (String × String)) :
    Except String (List (String × String × ℚ)) :=
  match word_to_uri_and_tf corpus with
  | Except.error e => Except.error e
  | Except.ok tf =>
    match word_to_df corpus with
    | Except.error e => Except.error e
    | Except.ok dfl =>
      match mapME (compute_tf_idf lg) (coGroupByKey tf dfl) with
      | Except.error e => Except.error e
      | Except.ok parts => Except.ok parts.flatten

/-- The command-line arguments defined by `run` via argparse: only the input
pattern and the output location are configurable. -/
def cli_arguments : List String := ["--uris", "--output"]

/-- The two-document corpus of the specification: doc A is "the cat sat",
doc B is "the dog sat". -/
def exampleCorpus : List (String × String) :=
  [("d1", "the cat sat"), ("d2", "the dog sat")]

/-- Reference direct count: occurrences of the word w in the document d. -/
def refWordCount (corpus : List (String × String)) (w d : String) : ℕ :=
  (uri_to_words corpus).count (d, w)

/-- Reference direct count: total word occurrences of the document d. -/
def refDocTotal (corpus : List (String × String)) (d : String) : ℕ :=
  ((uri_to_words corpus).filter (fun p => decide (p.1 = d))).length

/-- Reference term frequency, by direct counting. -/
def tfRef (corpus : List (String × String)) (w d : String) : ℚ :=
  (refWordCount corpus w d : ℚ) / (refDocTotal corpus d : ℚ)

/-- Reference direct count: distinct documents containing the word w. -/
def refDocsContaining (corpus : List (String × String)) (w : String) : ℕ :=
  ((((uri_to_words corpus).filter (fun p => decide (p.2 = w))).map Prod.fst).dedup).length

/-- Reference direct count: distinct documents of the corpus. -/
def refTotalDocs (corpus : List (String × String)) : ℕ :=
  ((corpus.map Prod.fst).dedup).length

/-- Reference document frequency, by direct counting. -/
def dfRef (corpus : List (String × String)) (w : String) : ℚ :=
  (refDocsContaining corpus w : ℚ) / (refTotalDocs corpus : ℚ)

/-- Spec-side description of tokenization, written independently of
`findall`: a single right fold that collects the maximal runs of characters
satisfying p, extending the run at the head while it is still open. -/
def runsAux (p : Char → Bool) (l : List Char) : Bool × List (List Char) :=
  l.foldr
    (fun c acc =>
      if p c then
        match acc with
        | (true, r :: rs) => (true, (c :: r) :: rs)
        | (true, []) => (true, [[c]])
        | (false, rs) => (true, [c] :: rs)
      else (false, acc.2))
    (false, [])

/-- Spec-side maximal runs of characters satisfying p. -/
def maximalRuns (p : Char → Bool) (l : List Char) : List (List Char) :=
  (runsAux p l).2

/-! Characterizations of the combinator models -/

theorem mem_countPerElement {α : Type} [BEq α] [DecidableEq α] {l : List α} {x : α} {n : ℕ} :
    (x, n) ∈ countPerElement l ↔ x ∈ l ∧ n = l.count x := by
  simp only [countPerElement, List.mem_map, Prod.mk.injEq]
  constructor
  · rintro ⟨y, hy, rfl, rfl⟩
    exact ⟨List.mem_dedup.mp hy, rfl⟩
  · rintro ⟨hx, rfl⟩
    exact ⟨x, List.mem_dedup.mpr hx, rfl, rfl⟩

theorem mem_map_fst_countPerElement {α : Type} [BEq α] [DecidableEq α] {l : List α} {x : α} :
    x ∈ (countPerElement l).map Prod.fst ↔ x ∈ l := by
  simp [countPerElement, List.mem_dedup]

theorem mem_coGroupByKey {κ α β : Type} [DecidableEq κ]
    {a : List (κ × α)} {b : List (κ × β)} {k : κ} {as : List α} {bs : List β} :
    (k, as, bs) ∈ coGroupByKey a b ↔
      (k ∈ a.map Prod.fst ∨ k ∈ b.map Prod.fst) ∧
      as = (a.filter (fun p => decide (p.1 = k))).map Prod.snd ∧
      bs = (b.filter (fun p => decide (p.1 = k))).map Prod.snd := by
  simp only [coGroupByKey, List.mem_map, Prod.mk.injEq, List.mem_dedup, List.mem_append]
  constructor
  · rintro ⟨k', hk', rfl, rfl, rfl⟩
    exact ⟨hk', rfl, rfl⟩
  · rintro ⟨hk, rfl, rfl⟩
    exact ⟨k, hk, rfl, rfl, rfl⟩

theorem filter_key_map_pair {α β : Type} [DecidableEq α] (g : α → β) :
    ∀ (d : List α), d.Nodup → ∀ k,
      (d.map (fun x => (x, g x))).filter (fun p => decide (p.1 = k)) =
        if k ∈ d then [(k, g k)] else [] := by
  intro d
  induction d with
  | nil => simp
  | cons a d ih =>
    intro hnd k
    have hih := ih hnd.of_cons k
    by_cases h : a = k
    · subst h
      have : a ∉ d := hnd.not_mem
      simp [List.filter_cons, hih, this]
    · have h' : ¬k = a := fun he => h he.symm
      simp [List.filter_cons, h, hih, h']

theorem countPerElement_filter_key {α : Type} [BEq α] [DecidableEq α] {l : List α} {k : α}
    (h : k ∈ l) :
    ((countPerElement l).filter (fun p => decide (p.1 = k))).map Prod.snd = [l.count k] := by
  rw [countPerElement, filter_key_map_pair _ _ (List.nodup_dedup l) k]
  simp [List.mem_dedup.mpr h]

theorem count_map_eq_length_filter {α β : Type} [BEq β] [LawfulBEq β] [DecidableEq β]
    (f : α → β) (l : List α) (b : β) :
    (l.map f).count b = (l.filter (fun a => decide (f a = b))).length := by
  induction l with
  | nil => simp
  | cons a l ih =>
    by_cases h : f a = b <;>
      simp [List.count_cons, h, List.filter_cons, ih]

theorem mapME_ok_of_forall {α β : Type} (f : α → Except String β) {l : List α}
    (h : ∀ a ∈ l, ∃ b, f a = Except.ok b) :
    ∃ bs, mapME f l = Except.ok bs := by
  induction l with
  | nil => exact ⟨[], rfl⟩
  | cons a l ih =>
    obtain ⟨b, hb⟩ := h a (by simp)
    obtain ⟨bs, hbs⟩ := ih (fun x hx => h x (by simp [hx]))
    exact ⟨b :: bs, by simp [mapME, hb, hbs]⟩

theorem mapME_ok_mem {α β : Type} (f : α → Except String β) :
    ∀ {l : List α} {bs : List β}, mapME f l = Except.ok bs →
      ∀ b ∈ bs, ∃ a ∈ l, f a = Except.ok b := by
  intro l
  induction l with
  | nil =>
    intro bs h b hb
    simp only [mapME] at h
    cases h
    simp at hb
  | cons a l ih =>
    intro bs h b hb
    cases hfa : f a with
    | error e => simp [mapME, hfa] at h
    | ok b0 =>
      cases hml : mapME f l with
      | error e => simp [mapME, hfa, hml] at h
      | ok bs0 =>
        simp only [mapME, hfa, hml] at h
        cases h
        rcases List.mem_cons.mp hb with rfl | hb2
        · exact ⟨a, by simp, hfa⟩
        · obtain ⟨x, hx, hfx⟩ := ih hml b hb2
          exact ⟨x, by simp [hx], hfx⟩

theorem mapME_map {α β : Type} (f : α → Except String β) (g : α → β) :
    ∀ (l : List α), (∀ a ∈ l, f a = Except.ok (g a)) →
      mapME f l = Except.ok (l.map g) := by
  intro l
  induction l with
  | nil => intro _; rfl
  | cons a l ih =>
    intro h
    have ha := h a (by simp)
    have hl := ih (fun x hx => h x (by simp [hx]))
    simp [mapME, ha, hl]

theorem fst_mem_of_mem_uri_to_words {corpus : List (String × String)} {u w : String}
    (h : (u, w) ∈ uri_to_words corpus) : u ∈ corpus.map Prod.fst := by
  simp only [uri_to_words, List.mem_flatMap] at h
  obtain ⟨p, hp, hmem⟩ := h
  simp only [split_into_words, List.mem_map, Prod.mk.injEq] at hmem
  obtain ⟨r, hr, h1, h2⟩ := hmem
  subst h1
  exact List.mem_map.mpr ⟨p, hp, rfl⟩

theorem mem_values_filter {κ β : Type} [DecidableEq κ] {b : List (κ × β)} {k : κ} {v : β}
    (h : v ∈ (b.filter (fun p => decide (p.1 = k))).map Prod.snd) : (k, v) ∈ b := by
  simp only [List.mem_map, List.mem_filter, decide_eq_true_eq] at h
  obtain ⟨p, ⟨hp, hk⟩, rfl⟩ := h
  subst hk
  simpa using hp

/-! Counting equalities between pipeline stages and the reference counts -/

theorem count_fst_uri_to_words (corpus : List (String × String)) (d : String) :
    ((uri_to_words corpus).map Prod.fst).count d = refDocTotal corpus d :=
  count_map_eq_length_filter Prod.fst (uri_to_words corpus) d

theorem filter_dedup_toFinset {α : Type} [DecidableEq α] (l : List α) (q : α → Bool) :
    (l.dedup.filter q).toFinset = (l.filter q).toFinset := by
  ext x
  simp [List.mem_filter, List.mem_dedup]

theorem map_toFinset_image {α β : Type} [DecidableEq α] [DecidableEq β]
    (f : α → β) (l : List α) : (l.map f).toFinset = l.toFinset.image f := by
  ext x
  simp

theorem count_snd_dedup_eq_refDocsContaining (corpus : List (String × String)) (w : String) :
    (((uri_to_words corpus).dedup).map Prod.snd).count w = refDocsContaining corpus w := by
  set W := uri_to_words corpus with hW
  set q : String × String → Bool := fun p => decide (p.2 = w) with hq
  have h1 : ((W.dedup).map Prod.snd).count w = (W.dedup.filter q).length :=
    count_map_eq_length_filter Prod.snd W.dedup w
  have h2 : (W.dedup.filter q).length = (W.dedup.filter q).toFinset.card :=
    (List.toFinset_card_of_nodup ((List.nodup_dedup W).filter q)).symm
  have h3 : (W.dedup.filter q).toFinset = (W.filter q).toFinset :=
    filter_dedup_toFinset W q
  have h4 : ((W.filter q).map Prod.fst).toFinset = (W.filter q).toFinset.image Prod.fst :=
    map_toFinset_image Prod.fst (W.filter q)
  have h5 : ((W.filter q).toFinset.image Prod.fst).card = (W.filter q).toFinset.card := by
    apply Finset.card_image_of_injOn
    intro x hx y hy hxy
    have hx2 : x.2 = w := by
      have := (List.mem_filter.mp (List.mem_toFinset.mp hx)).2
      simpa [hq] using this
    have hy2 : y.2 = w := by
      have := (List.mem_filter.mp (List.mem_toFinset.mp hy)).2
      simpa [hq] using this
    exact Prod.ext hxy (hx2.trans hy2.symm)
  have h6 : refDocsContaining corpus w = ((W.filter q).map Prod.fst).toFinset.card :=
    (List.card_toFinset _).symm
  rw [h1, h2, h3, h6, h4, h5]

theorem refDocsContaining_le (corpus : List (String × String)) (w : String) :
    refDocsContaining corpus w ≤ refTotalDocs corpus := by
  set W := uri_to_words corpus with hW
  set q : String × String → Bool := fun p => decide (p.2 = w) with hq
  have h1 : refDocsContaining corpus w = ((W.filter q).map Prod.fst).toFinset.card :=
    (List.card_toFinset _).symm
  have h2 : refTotalDocs corpus = (corpus.map Prod.fst).toFinset.card :=
    (List.card_toFinset _).symm
  rw [h1, h2]
  apply Finset.card_le_card
  intro x hx
  simp only [List.mem_toFinset, List.mem_map] at hx ⊢
  obtain ⟨p, hp, rfl⟩ := hx
  have hpW : p ∈ W := (List.mem_filter.mp hp).1
  obtain ⟨pu, pw⟩ := p
  have := fst_mem_of_mem_uri_to_words hpW
  simpa using this

theorem total_documents_pos_of_word {corpus : List (String × String)} {w : String}
    (h : w ∈ ((uri_to_words corpus).dedup).map Prod.snd) :
    0 < total_documents corpus := by
  simp only [List.mem_map, List.mem_dedup] at h
  obtain ⟨p, hp, rfl⟩ := h
  obtain ⟨pu, pw⟩ := p
  have hu : pu ∈ corpus.map Prod.fst := fst_mem_of_mem_uri_to_words hp
  have : pu ∈ (corpus.map Prod.fst).dedup := List.mem_dedup.mpr hu
  have hne : (corpus.map Prod.fst).dedup ≠ [] := List.ne_nil_of_mem this
  simpa [total_documents] using List.length_pos.mpr hne

/-! Stage characterizations -/

theorem mem_uri_to_word_and_count {corpus : List (String × String)}
    {u w : String} {n : ℕ} (h : (u, w, n) ∈ uri_to_word_and_count corpus) :
    (u, w) ∈ uri_to_words corpus ∧ n = (uri_to_words corpus).count (u, w) := by
  simp only [uri_to_word_and_count, List.mem_map] at h
  obtain ⟨⟨⟨pu, pw⟩, pn⟩, hy, he⟩ := h
  simp only [Prod.mk.injEq] at he
  obtain ⟨rfl, rfl, rfl⟩ := he
  rw [uri_and_word_to_count] at hy
  exact mem_countPerElement.mp hy

theorem mem_cog1 {corpus : List (String × String)} {u : String}
    {ts : List ℕ} {cs : List (String × ℕ)}
    (h : (u, ts, cs) ∈ uri_to_word_and_count_and_total corpus) :
    u ∈ (uri_to_words corpus).map Prod.fst ∧
    ts = [((uri_to_words corpus).map Prod.fst).count u] ∧
    cs = ((uri_to_word_and_count corpus).filter (fun p => decide (p.1 = u))).map Prod.snd := by
  rw [uri_to_word_and_count_and_total] at h
  obtain ⟨hk, hts, hcs⟩ := mem_coGroupByKey.mp h
  have hu : u ∈ (uri_to_words corpus).map Prod.fst := by
    rcases hk with hk | hk
    · rw [uri_to_word_total] at hk
      exact mem_map_fst_countPerElement.mp hk
    · simp only [uri_to_word_and_count, List.map_map, List.mem_map, Function.comp] at hk
      obtain ⟨⟨⟨pu, pw⟩, pn⟩, hy, he⟩ := hk
      rw [uri_and_word_to_count] at hy
      have hpair := (mem_countPerElement.mp hy).1
      subst he
      exact List.mem_map.mpr ⟨(pu, pw), hpair, rfl⟩
  refine ⟨hu, ?_, hcs⟩
  rw [uri_to_word_total, countPerElement_filter_key hu] at hts
  exact hts

theorem compute_term_frequency_cog1 {corpus : List (String × String)}
    {x : String × List ℕ × List (String × ℕ)}
    (hx : x ∈ uri_to_word_and_count_and_total corpus) :
    compute_term_frequency x =
      Except.ok (x.2.2.map (fun wc =>
        (wc.1, x.1, (wc.2 : ℚ) / (refDocTotal corpus x.1 : ℚ)))) := by
  obtain ⟨u, ts, cs⟩ := x
  obtain ⟨hu, hts, -⟩ := mem_cog1 hx
  have hpos : 0 < ((uri_to_words corpus).map Prod.fst).count u :=
    List.count_pos_iff.mpr hu
  subst hts
  simp only [compute_term_frequency]
  rw [if_neg (by omega), count_fst_uri_to_words]

theorem word_to_uri_and_tf_ok (corpus : List (String × String)) :
    ∃ L, word_to_uri_and_tf corpus = Except.ok L ∧
      ∀ w d t, (w, d, t) ∈ L →
        (d, w) ∈ uri_to_words corpus ∧
        t = ((uri_to_words corpus).count (d, w) : ℚ) / (refDocTotal corpus d : ℚ) := by
  obtain ⟨parts, hparts⟩ := mapME_ok_of_forall compute_term_frequency
    (fun x hx => ⟨_, compute_term_frequency_cog1 hx⟩)
  refine ⟨parts.flatten, ?_, ?_⟩
  · rw [word_to_uri_and_tf, hparts]
  · intro w d t hmem
    obtain ⟨part, hpartmem, hin⟩ := List.mem_flatten.mp hmem
    obtain ⟨x, hxmem, hfx⟩ := mapME_ok_mem _ hparts part hpartmem
    rw [compute_term_frequency_cog1 hxmem] at hfx
    injection hfx with hfx
    subst hfx
    obtain ⟨u, ts, cs⟩ := x
    obtain ⟨wc, hwc, he⟩ := List.mem_map.mp hin
    simp only [Prod.mk.injEq] at he
    obtain ⟨h1, h2, h3⟩ := he
    subst h1
    subst h2
    subst h3
    obtain ⟨-, -, hcs⟩ := mem_cog1 hxmem
    subst hcs
    have hmem2 := mem_values_filter hwc
    obtain ⟨hW, hcount⟩ := mem_uri_to_word_and_count hmem2
    exact ⟨hW, by rw [hcount]⟩

theorem mem_word_to_doc_count {corpus : List (String × String)} {w : String} {n : ℕ}
    (h : (w, n) ∈ word_to_doc_count corpus) :
    n = refDocsContaining corpus w ∧ 0 < n ∧ 0 < total_documents corpus ∧
      n ≤ total_documents corpus := by
  rw [word_to_doc_count] at h
  obtain ⟨hw, hn⟩ := mem_countPerElement.mp h
  have hpos : 0 < (((uri_to_words corpus).dedup).map Prod.snd).count w :=
    List.count_pos_iff.mpr hw
  have hrc := count_snd_dedup_eq_refDocsContaining corpus w
  have htd : 0 < total_documents corpus := total_documents_pos_of_word hw
  have hle : refDocsContaining corpus w ≤ refTotalDocs corpus := refDocsContaining_le corpus w
  have hTT : total_documents corpus = refTotalDocs corpus := rfl
  exact ⟨hn.trans hrc, by omega, htd, by omega⟩

theorem word_to_df_ok (corpus : List (String × String)) :
    word_to_df corpus =
      Except.ok ((word_to_doc_count corpus).map
        (fun wc => (wc.1, (wc.2 : ℚ) / (total_documents corpus : ℚ)))) := by
  rw [word_to_df]
  apply mapME_map
  intro a ha
  obtain ⟨w, n⟩ := a
  have h := mem_word_to_doc_count ha
  have hT : total_documents corpus ≠ 0 := by omega
  simp [hT]

theorem word_to_df_filter_key {corpus : List (String × String)} {w : String}
    (hw : w ∈ ((uri_to_words corpus).dedup).map Prod.snd) :
    (((word_to_doc_count corpus).map
        (fun wc => (wc.1, (wc.2 : ℚ) / (total_documents corpus : ℚ)))).filter
      (fun p => decide (p.1 = w))).map Prod.snd =
      [(refDocsContaining corpus w : ℚ) / (total_documents corpus : ℚ)] := by
  set dd := ((uri_to_words corpus).dedup).map Prod.snd with hdd
  have hcomp : (word_to_doc_count corpus).map
      (fun wc => (wc.1, (wc.2 : ℚ) / (total_documents corpus : ℚ))) =
      dd.dedup.map (fun x => (x, (dd.count x : ℚ) / (total_documents corpus : ℚ))) := by
    rw [word_to_doc_count, countPerElement, List.map_map]
    rfl
  rw [hcomp, filter_key_map_pair _ _ (List.nodup_dedup dd) w]
  rw [if_pos (List.mem_dedup.mpr hw)]
  simp [hdd, count_snd_dedup_eq_refDocsContaining]

theorem tfidf_apply_ok (lg : ℚ → ℚ) (corpus : List (String × String)) :
    ∃ out, tfidf_apply lg corpus = Except.ok out ∧
      ∀ w d s, (w, d, s) ∈ out →
        (d, w) ∈ uri_to_words corpus ∧
        s = tfRef corpus w d * lg (1 / dfRef corpus w) := by
  obtain ⟨tfL, htfL, htfchar⟩ := word_to_uri_and_tf_ok corpus
  have hdfL := word_to_df_ok corpus
  have hkey : ∀ w tfs dfs,
      (w, tfs, dfs) ∈ coGroupByKey tfL ((word_to_doc_count corpus).map
        (fun wc => (wc.1, (wc.2 : ℚ) / (total_documents corpus : ℚ)))) →
      w ∈ ((uri_to_words corpus).dedup).map Prod.snd := by
    intro w tfs dfs hx
    obtain ⟨hk, -, -⟩ := mem_coGroupByKey.mp hx
    rcases hk with hk | hk
    · obtain ⟨z, hz, hz1⟩ := List.mem_map.mp hk
      obtain ⟨zw, zd, zt⟩ := z
      obtain rfl : zw = w := hz1
      obtain ⟨hmemW, -⟩ := htfchar zw zd zt hz
      exact List.mem_map.mpr ⟨(zd, zw), List.mem_dedup.mpr hmemW, rfl⟩
    · obtain ⟨z, hz, hz1⟩ := List.mem_map.mp hk
      obtain ⟨wc, hwc, hwc1⟩ := List.mem_map.mp hz
      obtain ⟨wn, nn⟩ := wc
      rw [word_to_doc_count] at hwc
      have hmem := (mem_countPerElement.mp hwc).1
      subst hwc1
      obtain rfl : wn = w := hz1
      exact hmem
  have hdfs : ∀ w tfs dfs,
      (w, tfs, dfs) ∈ coGroupByKey tfL ((word_to_doc_count corpus).map
        (fun wc => (wc.1, (wc.2 : ℚ) / (total_documents corpus : ℚ)))) →
      dfs = [(refDocsContaining corpus w : ℚ) / (total_documents corpus : ℚ)] := by
    intro w tfs dfs hx
    obtain ⟨-, -, hd⟩ := mem_coGroupByKey.mp hx
    rw [hd]
    exact word_to_df_filter_key (hkey w tfs dfs hx)
  have hctf : ∀ x ∈ coGroupByKey tfL ((word_to_doc_count corpus).map
        (fun wc => (wc.1, (wc.2 : ℚ) / (total_documents corpus : ℚ)))),
      compute_tf_idf lg x = Except.ok
        (x.2.1.map (fun ut => (x.1, ut.1, ut.2 *
          lg (1 / ((refDocsContaining corpus x.1 : ℚ) / (total_documents corpus : ℚ)))))) := by
    intro x hx
    obtain ⟨w, tfs, dfs⟩ := x
    have hd := hdfs w tfs dfs hx
    subst hd
    simp only [compute_tf_idf]
  obtain ⟨parts, hparts⟩ := mapME_ok_of_forall (compute_tf_idf lg)
    (fun x hx => ⟨_, hctf x hx⟩)
  refine ⟨parts.flatten, ?_, ?_⟩
  · simp only [tfidf_apply, htfL, hdfL, hparts]
  · intro w d s hmem
    obtain ⟨part, hpartmem, hin⟩ := List.mem_flatten.mp hmem
    obtain ⟨x, hxmem, hfx⟩ := mapME_ok_mem _ hparts part hpartmem
    rw [hctf x hxmem] at hfx
    injection hfx with hfx
    subst hfx
    obtain ⟨w', tfs, dfs⟩ := x
    obtain ⟨ut, hut, he⟩ := List.mem_map.mp hin
    simp only [Prod.mk.injEq] at he
    obtain ⟨h1, h2, h3⟩ := he
    subst h1
    subst h2
    subst h3
    obtain ⟨-, htfs, -⟩ := mem_coGroupByKey.mp hxmem
    subst htfs
    have hmemtf := mem_values_filter hut
    obtain ⟨hW, ht⟩ := htfchar w' ut.1 ut.2 hmemtf
    refine ⟨hW, ?_⟩
    rw [ht]
    simp only [tfRef, refWordCount, dfRef, total_documents, refTotalDocs]

/-! The per-document word-total partition -/

theorem sum_count_eq_length {α : Type} [BEq α] [LawfulBEq α] [DecidableEq α] :
    ∀ (d F : List α), d.Nodup → (∀ x ∈ F, x ∈ d) →
      (d.map (fun x => F.count x)).sum = F.length := by
  intro d
  induction d with
  | nil =>
    intro F _ h
    have hF : F = [] := by
      cases F with
      | nil => rfl
      | cons a F => exact absurd (h a (List.mem_cons_self a F)) (List.not_mem_nil a)
    simp [hF]
  | cons a d ih =>
    intro F hnd h
    have hcnt : F.count a = (F.filter (fun y => y == a)).length := by
      rw [List.count_eq_countP, List.countP_eq_length_filter]
    have hrest : ∀ x ∈ d, F.count x = (F.filter (fun y => !(y == a))).count x := by
      intro x hx
      have hxa : x ≠ a := by
        intro he
        subst he
        exact hnd.not_mem hx
      exact (List.count_filter (by simpa using hxa)).symm
    have hmap : d.map (fun x => F.count x) =
        d.map (fun x => (F.filter (fun y => !(y == a))).count x) :=
      List.map_congr_left hrest
    have hsub : ∀ x ∈ F.filter (fun y => !(y == a)), x ∈ d := by
      intro x hx
      obtain ⟨hxF, hxne⟩ := List.mem_filter.mp hx
      have hne : x ≠ a := by simpa using hxne
      rcases List.mem_cons.mp (h x hxF) with rfl | hd2
      · exact absurd rfl hne
      · exact hd2
    have hih := ih (F.filter (fun y => !(y == a))) hnd.of_cons hsub
    rw [List.map_cons, List.sum_cons, hmap, hih, hcnt]
    have hlen := List.length_eq_length_filter_add (l := F) (fun y => y == a)
    omega

theorem filter_key1_map_pair {β : Type} (g : (String × String) → β) (d : String) :
    ∀ l : List (String × String),
      ((l.map (fun x => (x, g x))).filter (fun p => decide (p.1.1 = d))).map Prod.snd =
        (l.filter (fun x => decide (x.1 = d))).map g := by
  intro l
  induction l with
  | nil => rfl
  | cons a l ih =>
    by_cases h : a.1 = d <;> simp [List.filter_cons, h, ih]

theorem word_total_partition_aux {corpus : List (String × String)} {d : String}
    (hd : d ∈ (uri_to_words corpus).map Prod.fst) :
    (((uri_and_word_to_count corpus).filter
        (fun x => decide (x.1.1 = d))).map Prod.snd).sum = refDocTotal corpus d ∧
    (d, refDocTotal corpus d) ∈ uri_to_word_total corpus := by
  constructor
  · rw [uri_and_word_to_count, countPerElement, filter_key1_map_pair _ d]
    have hcong : ∀ x ∈ (uri_to_words corpus).dedup.filter (fun x => decide (x.1 = d)),
        (uri_to_words corpus).count x =
          ((uri_to_words corpus).filter (fun x => decide (x.1 = d))).count x := by
      intro x hx
      exact (List.count_filter (p := fun x => decide (x.1 = d)) (a := x)
        (l := uri_to_words corpus) (List.mem_filter.mp hx).2).symm
    rw [List.map_congr_left hcong]
    have hsub : ∀ x ∈ (uri_to_words corpus).filter (fun x => decide (x.1 = d)),
        x ∈ (uri_to_words corpus).dedup.filter (fun x => decide (x.1 = d)) := by
      intro x hx
      obtain ⟨hxm, hxp⟩ := List.mem_filter.mp hx
      exact List.mem_filter.mpr ⟨List.mem_dedup.mpr hxm, hxp⟩
    exact sum_count_eq_length _ _ ((List.nodup_dedup _).filter _) hsub
  · rw [uri_to_word_total]
    have hm := mem_countPerElement.mpr
      (⟨hd, rfl⟩ : d ∈ (uri_to_words corpus).map Prod.fst ∧
        ((uri_to_words corpus).map Prod.fst).count d =
          ((uri_to_words corpus).map Prod.fst).count d)
    rwa [count_fst_uri_to_words] at hm

/-! The tokenizer produces exactly the maximal runs -/

theorem runsAux_nil (p : Char → Bool) : runsAux p [] = (false, []) := rfl

theorem runsAux_cons (p : Char → Bool) (c : Char) (cs : List Char) :
    runsAux p (c :: cs) =
      if p c then
        match runsAux p cs with
        | (true, r :: rs) => (true, (c :: r) :: rs)
        | (true, []) => (true, [[c]])
        | (false, rs) => (true, [c] :: rs)
      else (false, (runsAux p cs).2) := rfl

theorem runsAux_open_ne_nil (p : Char → Bool) :
    ∀ l : List Char, (runsAux p l).1 = true → (runsAux p l).2 ≠ [] := by
  intro l
  induction l with
  | nil => simp [runsAux_nil]
  | cons c cs ih =>
    rw [runsAux_cons]
    by_cases hp : p c
    · rw [if_pos hp]
      rcases hrec : runsAux p cs with ⟨o, rs⟩
      cases o <;> cases rs <;> simp
    · rw [if_neg hp]
      simp

theorem findallAux_eq :
    ∀ (l : List Char) (acc : List Char),
      findallAux acc l =
        if (runsAux isWordChar l).1 then
          match (runsAux isWordChar l).2 with
          | r :: rs => (acc.reverse ++ r) :: rs
          | [] => [acc.reverse]
        else if acc.isEmpty then (runsAux isWordChar l).2
        else acc.reverse :: (runsAux isWordChar l).2 := by
  intro l
  induction l with
  | nil =>
    intro acc
    rw [runsAux_nil]
    by_cases ha : acc.isEmpty <;> simp [findallAux, ha]
  | cons c cs ih =>
    intro acc
    rw [runsAux_cons]
    by_cases hp : isWordChar c
    · rw [if_pos hp]
      have hl : findallAux acc (c :: cs) = findallAux (c :: acc) cs := by
        simp [findallAux, hp]
      rw [hl, ih (c :: acc)]
      rcases hrec : runsAux isWordChar cs with ⟨o, rs⟩
      cases o
      · simp
      · cases rs with
        | nil => simp
        | cons r rs2 => simp
    · rw [if_neg hp]
      have hl : findallAux acc (c :: cs) =
          if acc.isEmpty then findallAux [] cs else acc.reverse :: findallAux [] cs := by
        simp [findallAux, hp]
      have h0 := ih []
      rcases hrec : runsAux isWordChar cs with ⟨o, rs⟩
      rw [hrec] at h0
      cases o
      · simp only [List.isEmpty_nil, if_true, if_false, Bool.false_eq_true,
          List.reverse_nil] at h0
        by_cases ha : acc.isEmpty <;> simp [hl, ha, h0]
      · have hne : rs ≠ [] := by
          have hy := runsAux_open_ne_nil isWordChar cs
          rw [hrec] at hy
          simpa using hy
        cases rs with
        | nil => exact absurd rfl hne
        | cons r rs2 =>
          simp only [List.reverse_nil, List.nil_append, if_true] at h0
          by_cases ha : acc.isEmpty <;> simp [hl, ha, h0]

theorem findall_eq_maximalRuns (l : List Char) :
    findall l = maximalRuns isWordChar l := by
  rw [findall, maximalRuns, findallAux_eq l []]
  rcases hrec : runsAux isWordChar l with ⟨o, rs⟩
  cases o
  · simp
  · have hne : rs ≠ [] := by
      have hy := runsAux_open_ne_nil isWordChar l
      rw [hrec] at hy
      simpa using hy
    cases rs with
    | nil => exact absurd rfl hne
    | cons r rs2 => simp

example : findall "The cat".data = [['T','h','e'], ['c','a','t']] := by decide

example :
    split_into_words ("doc", String.mk (['T','h','e',' ','c','a','t',apos,'s',' ','h','a','t','.'])) =
      [("doc", "the"), ("doc", String.mk ['c','a','t',apos,'s']), ("doc", "hat")] := by
  decide

/-! Claims -/

/-- C1: for every word w and document d present in the pipeline output, the
emitted score equals tf(w, d) * log(1 / df(w)), where tf(w, d) and df(w) are
the reference values recomputed from the same corpus by direct counting. -/
theorem tfidf_output_matches_reference (lg : ℚ → ℚ) (corpus : List (String × String))
    (out : List (String × String × ℚ)) (w d : String) (s : ℚ)
    (hok : tfidf_apply lg corpus = Except.ok out) (hm : (w, d, s) ∈ out) :
    s = tfRef corpus w d * lg (1 / dfRef corpus w) := by
  obtain ⟨out2, hok2, hchar⟩ := tfidf_apply_ok lg corpus
  rw [hok] at hok2
  injection hok2 with he
  subst he
  exact (hchar w d s hm).2

/-- C1 witness: on the specification's two-document corpus the emitted score
of ("cat", "d1") is (1/3) * id (1 / (1/2)), which indeed equals the
reference tf times id of one over the reference df. -/
theorem tfidf_output_matches_reference_witness :
    (1 : ℚ)/3 * id (1 / ((1 : ℚ)/2)) =
      tfRef exampleCorpus "cat" "d1" * id (1 / dfRef exampleCorpus "cat") :=
  tfidf_output_matches_reference id exampleCorpus
    [("cat", ("d1", (1 : ℚ)/3 * id (1 / ((1 : ℚ)/2)))),
     ("the", ("d1", (1 : ℚ)/3 * id (1 / ((2 : ℚ)/2)))),
     ("the", ("d2", (1 : ℚ)/3 * id (1 / ((2 : ℚ)/2)))),
     ("dog", ("d2", (1 : ℚ)/3 * id (1 / ((1 : ℚ)/2)))),
     ("sat", ("d1", (1 : ℚ)/3 * id (1 / ((2 : ℚ)/2)))),
     ("sat", ("d2", (1 : ℚ)/3 * id (1 / ((2 : ℚ)/2))))]
    "cat" "d1" ((1 : ℚ)/3 * id (1 / ((1 : ℚ)/2))) (by rfl) (List.mem_cons_self _ _)

/-- C2 counterexample: on the empty corpus the pipeline does not fail at all:
it returns an empty output, because no record ever reaches a division site. -/
theorem empty_corpus_no_failure_cex : tfidf_apply id [] = Except.ok [] := rfl

/-- C2 amended: for the empty corpus the pipeline succeeds with an empty
output; no corpus-empty error is raised and no NaN or undefined score is
produced, because the per-element division functions are never invoked. -/
theorem empty_corpus_yields_empty_output (lg : ℚ → ℚ) :
    tfidf_apply lg [] = Except.ok [] := rfl

/-- C3: a word present on the term-frequency side of the final join with no
document-frequency value makes the Score Combiner raise the single-element
unpacking error; its term-frequency records are never silently dropped. -/
theorem orphan_word_key_errors (lg : ℚ → ℚ) (w : String) (tfs : List (String × ℚ)) :
    compute_tf_idf lg (w, tfs, []) =
      Except.error "ValueError: need exactly one document frequency to unpack" := rfl

/-- C4: the tokenizer emits exactly the maximal runs of characters matching
the word character class, in order, lowercased; on "The cat's hat." it emits
"the", "cat's", "hat", and on a line with no match it emits nothing. -/
theorem tokenizer_maximal_runs :
    (∀ uri line, split_into_words (uri, line) =
        (maximalRuns isWordChar line.data).map
          (fun w => (uri, String.mk (w.map Char.toLower)))) ∧
    split_into_words ("d",
        String.mk ['T','h','e',' ','c','a','t',apos,'s',' ','h','a','t','.']) =
      [("d", "the"), ("d", String.mk ['c','a','t',apos,'s']), ("d", "hat")] ∧
    split_into_words ("d", "1 2 3 .!?") = [] := by
  refine ⟨?_, by decide, by decide⟩
  intro uri line
  simp only [split_into_words]
  rw [findall_eq_maximalRuns]

/-- C5: the total document count is the number of distinct document ids, the
per-word document count is the number of distinct documents containing the
word (with (uri, word) pairs deduplicated before counting), and each
document-frequency ratio is that count divided by the total. -/
theorem doc_frequency_counter_reference (corpus : List (String × String)) :
    total_documents corpus = refTotalDocs corpus ∧
    (∀ w n, (w, n) ∈ word_to_doc_count corpus ↔
      (∃ u, (u, w) ∈ uri_to_words corpus) ∧ n = refDocsContaining corpus w) ∧
    (∀ L, word_to_df corpus = Except.ok L →
      ∀ w q, (w, q) ∈ L → q = dfRef corpus w) := by
  refine ⟨rfl, ?_, ?_⟩
  · intro w n
    rw [word_to_doc_count]
    constructor
    · intro h
      obtain ⟨hw, hn⟩ := mem_countPerElement.mp h
      obtain ⟨p, hp, hps⟩ := List.mem_map.mp hw
      obtain ⟨pu, pw⟩ := p
      obtain rfl : pw = w := hps
      refine ⟨⟨pu, List.mem_dedup.mp hp⟩, ?_⟩
      rw [hn, count_snd_dedup_eq_refDocsContaining]
    · rintro ⟨⟨u, hu⟩, rfl⟩
      apply mem_countPerElement.mpr
      refine ⟨List.mem_map.mpr ⟨(u, w), List.mem_dedup.mpr hu, rfl⟩, ?_⟩
      rw [count_snd_dedup_eq_refDocsContaining]
  · intro L hL w q hm
    rw [word_to_df_ok] at hL
    injection hL with hL
    subst hL
    obtain ⟨wc, hwc, he⟩ := List.mem_map.mp hm
    obtain ⟨wn, nn⟩ := wc
    simp only [Prod.mk.injEq] at he
    obtain ⟨rfl, rfl⟩ := he
    have h := mem_word_to_doc_count hwc
    rw [h.1]
    rfl

/-- C5 witness: on the example corpus, "cat" has document count 1, the
number of distinct documents that contain it. -/
theorem doc_frequency_counter_reference_witness :
    1 = refDocsContaining exampleCorpus "cat" :=
  (((doc_frequency_counter_reference exampleCorpus).2.1 "cat" 1).mp (by decide)).2

/-- C6 counterexample: a corpus whose second document has no word characters
is processed without any document-empty error: the tokenless document is
silently omitted from the output, and the command line exposes no
configuration option that selects this policy. -/
theorem empty_document_policy_cex :
    tfidf_apply id [("d1", "a cat"), ("d2", "?!")] =
      Except.ok [("a", ("d1", 1)), ("cat", ("d1", 1))] ∧
    cli_arguments = ["--uris", "--output"] := by
  refine ⟨?_, rfl⟩
  have h : tfidf_apply id [("d1", "a cat"), ("d2", "?!")] =
      Except.ok [("a", ("d1", (1 : ℚ)/2 * id (1 / ((1 : ℚ)/2)))),
                 ("cat", ("d1", (1 : ℚ)/2 * id (1 / ((1 : ℚ)/2))))] := rfl
  rw [h]
  norm_num

/-- C6 amended: a document contributing zero word occurrences is silently
and unconditionally excluded from term-frequency computation: the
term-frequency stage never fails and only documents with at least one word
occurrence appear in it; no configuration option exists for this policy (the
CLI takes only the input pattern and the output location). -/
theorem empty_document_silently_excluded (corpus : List (String × String)) :
    (∃ L, word_to_uri_and_tf corpus = Except.ok L ∧
      ∀ w d t, (w, d, t) ∈ L → d ∈ (uri_to_words corpus).map Prod.fst) ∧
    cli_arguments = ["--uris", "--output"] := by
  refine ⟨?_, rfl⟩
  obtain ⟨L, hL, hchar⟩ := word_to_uri_and_tf_ok corpus
  refine ⟨L, hL, ?_⟩
  intro w d t hm
  obtain ⟨hW, -⟩ := hchar w d t hm
  exact List.mem_map.mpr ⟨(d, w), hW, rfl⟩

/-- C6 amended witness: instantiated on the corpus whose second document is
tokenless. -/
theorem empty_document_silently_excluded_witness :
    cli_arguments = ["--uris", "--output"] :=
  (empty_document_silently_excluded [("d1", "a cat"), ("d2", "?!")]).2

/-- C7: for every document d appearing in the tokenized stream, the
per-(document, word) occurrence counts sum to the document's word total, and
that total is the one recorded in uri_to_word_total. -/
theorem word_total_partition (corpus : List (String × String)) (d : String)
    (hd : d ∈ (uri_to_words corpus).map Prod.fst) :
    (((uri_and_word_to_count corpus).filter
        (fun x => decide (x.1.1 = d))).map Prod.snd).sum = refDocTotal corpus d ∧
    (d, refDocTotal corpus d) ∈ uri_to_word_total corpus :=
  word_total_partition_aux hd

/-- C7 witness: in the example corpus, document d1's three per-word counts
sum to its word total 3. -/
theorem word_total_partition_witness :
    ((((uri_and_word_to_count exampleCorpus).filter
        (fun x => decide (x.1.1 = "d1"))).map Prod.snd).sum =
      refDocTotal exampleCorpus "d1") ∧
    ("d1", refDocTotal exampleCorpus "d1") ∈ uri_to_word_total exampleCorpus :=
  word_total_partition exampleCorpus "d1" (by decide)

/-- C8: every document frequency emitted by word_to_df satisfies
0 < df ≤ 1, stated over exact rational arithmetic. -/
theorem document_frequency_bounds (corpus : List (String × String))
    (L : List (String × ℚ)) (w : String) (q : ℚ)
    (hL : word_to_df corpus = Except.ok L) (hm : (w, q) ∈ L) :
    0 < q ∧ q ≤ 1 := by
  rw [word_to_df_ok] at hL
  injection hL with hL
  subst hL
  obtain ⟨wc, hwc, he⟩ := List.mem_map.mp hm
  obtain ⟨wn, nn⟩ := wc
  simp only [Prod.mk.injEq] at he
  obtain ⟨rfl, rfl⟩ := he
  have h := mem_word_to_doc_count hwc
  constructor
  · exact div_pos (by exact_mod_cast h.2.1) (by exact_mod_cast h.2.2.1)
  · rw [div_le_one (by exact_mod_cast h.2.2.1)]
    exact_mod_cast h.2.2.2

/-- C8 witness: in the example corpus the document frequency of "cat" is
1/2, which lies in (0, 1]. -/
theorem document_frequency_bounds_witness :
    (0 : ℚ) < (1 : ℚ)/2 ∧ (1 : ℚ)/2 ≤ 1 :=
  document_frequency_bounds exampleCorpus
    [("cat", (1 : ℚ)/2), ("the", (2 : ℚ)/2), ("dog", (1 : ℚ)/2), ("sat", (2 : ℚ)/2)]
    "cat" ((1 : ℚ)/2) (by rfl) (List.mem_cons_self _ _)

/-- C9: the pipeline is a deterministic function of its input records: two
runs on the identical corpus produce identical results. -/
theorem pipeline_deterministic (lg : ℚ → ℚ) (corpus : List (String × String)) :
    tfidf_apply lg corpus = tfidf_apply lg corpus := rfl

/-- C10: for every document id in the cogroup of word counts with word
totals, the word-totals side holds exactly one element, which is positive,
so the single-element unpacking in compute_term_frequency succeeds and the
divisor is never zero. -/
theorem word_totals_singleton (corpus : List (String × String)) (u : String)
    (ts : List ℕ) (cs : List (String × ℕ))
    (h : (u, ts, cs) ∈ uri_to_word_and_count_and_total corpus) :
    ∃ t, ts = [t] ∧ 0 < t ∧
      ∃ r, compute_term_frequency (u, ts, cs) = Except.ok r := by
  obtain ⟨hu, hts, -⟩ := mem_cog1 h
  exact ⟨_, hts, List.count_pos_iff.mpr hu, _, compute_term_frequency_cog1 h⟩

/-- C10 witness: document d1 of the example corpus has the single word
total 3 and its term frequencies compute successfully. -/
theorem word_totals_singleton_witness :
    ∃ t, ([3] : List ℕ) = [t] ∧ 0 < t ∧
      ∃ r, compute_term_frequency
        ("d1", [3], [("the", 1), ("cat", 1), ("sat", 1)]) = Except.ok r :=
  word_totals_singleton exampleCorpus "d1" [3]
    [("the", 1), ("cat", 1), ("sat", 1)] (by decide)

end Tfidf
